import Mathlib

/-!
Verification of the replication-dynamics engine of the Replication-Game
repository (`src/streamlit_app.py` and `src/replication_dynamics.py`,
function `simulate_replication_dynamics`).

The engine is embedded over exact rationals.  A population-share vector
over `K = n + 1` strategies is a function `Fin (n+1) → ℚ`, and the payoff
matrix is indexed the same way, in the order of the `automatons` list
(order of indexing is what the source's `enumerate(automatons)` loops use).
The dict-of-dicts payoff matrix with possibly missing entries is modelled
as an `Option ℚ`-valued matrix; a missing entry makes the run fail
(Python raises `KeyError`), modelled by an `Option`-valued simulation.
-/

namespace ReplicationGame

/-- The fixed strategy set of the repository, in source order. -/
def automatons : List String :=
  ["DOVE", "HAWK", "GRIM", "TIT-FOR-TAT", "TAT-FOR-TIT",
   "TWEEDLEDUM", "TWEEDLEDEE", "TWEETYPIE"]

/-- Population-share / payoff vector over `n+1` strategies. -/
abbrev Vec (n : ℕ) := Fin (n + 1) → ℚ

/-- Payoff matrix over `n+1` strategies: `M i j` is the payoff strategy `i`
earns per encounter against opponent `j`. -/
abbrev Mat (n : ℕ) := Fin (n + 1) → Fin (n + 1) → ℚ

/-- The default 8×8 payoff matrix of the source (`default_payoff_matrix`),
rows and columns indexed in the order of `automatons`
(DOVE, HAWK, GRIM, TIT-FOR-TAT, TAT-FOR-TIT, TWEEDLEDUM, TWEEDLEDEE,
TWEETYPIE); `-0.5` is `-1/2`, `1.5` is `3/2`, `0.75` is `3/4`. -/
def defaultPayoffMatrix : Mat 7 :=
  ![![1, -1/2, 1, 1, 1, 1, 1, -1/2],
    ![3, 0, 0, 0, 3/2, 3/2, 3/2, 3],
    ![2, 0, 2, 2, 0, 2, 2, -1],
    ![2, 0, 2, 2, 2/3, 2, 2, 2],
    ![-1/2, 3/4, 0, 2/3, 2, 2, 2, 2],
    ![2, 3/4, 2, 2, 2, 2, 2, 2],
    ![2, 3/4, 2, 2, 2, 2, 2, 2],
    ![-1/2, 3, -1, 2, 2, 2, 2, 2]]

/-- One period's expected payoffs: the inner double loop
`payoffs[i] += payoff_matrix[automaton_i][automaton_j] * probabilities[j]`,
i.e. `π_i = Σ_j M i j * p j` (full mixing, self-play included). -/
def expPayoffs {n : ℕ} (M : Mat n) (p : Vec n) : Vec n :=
  fun i => ∑ j, M i j * p j

/-- `np.min(payoffs)`: the least entry of a payoff vector. -/
def minPayoff {n : ℕ} (payoffs : Vec n) : ℚ :=
  Finset.univ.inf' Finset.univ_nonempty payoffs

/-- The reweighting shift of the source:
`payoffs - min_payoff + 1` when `min_payoff < 0`, else `payoffs + 1`. -/
def adjustPayoffs {n : ℕ} (payoffs : Vec n) : Vec n :=
  if minPayoff payoffs < 0 then fun i => payoffs i - minPayoff payoffs + 1
  else fun i => payoffs i + 1

/-- `probabilities = probabilities * payoffs_adjusted` followed by
`probabilities = probabilities / np.sum(probabilities)`. -/
def updateShares {n : ℕ} (p adj : Vec n) : Vec n :=
  fun i => p i * adj i / ∑ k, p k * adj k

/-- The complete one-period share transformation of the source loop body. -/
def stepShares {n : ℕ} (M : Mat n) (p : Vec n) : Vec n :=
  updateShares p (adjustPayoffs (expPayoffs M p))

/-- `np.argmax` over a list scanned left to right, started from a current
best candidate: keeps the earliest index attaining the maximum. -/
def argmaxAcc {α : Type} (f : α → ℚ) : α → List α → α
  | a, [] => a
  | a, x :: l => argmaxAcc f (if f a < f x then x else a) l

/-- `np.argmax([payoff_matrix[automaton][opp] for opp in automatons])`:
the (first) opponent maximizing strategy `i`'s static payoff row. -/
def bestOpponent {n : ℕ} (row : Vec n) : Fin (n + 1) :=
  argmaxAcc row 0 (List.finRange (n + 1))

/-- The accumulated outputs of `simulate_replication_dynamics`:
current share vector, `history`, `payoff_history`, `strategy_history`,
`payoff_matrices` (the per-period payoff column), and
`pairwise_payoffs_history`. -/
@[ext]
structure SimState (n : ℕ) where
  probabilities : Vec n
  history : List (Vec n)
  payoffHistory : Fin (n + 1) → List ℚ
  strategyHistory : List (Fin (n + 1) → Fin (n + 1))
  payoffMatrices : List (Vec n)
  pairwiseHistory : List (Mat n)

/-- State before the loop: uniform shares `np.ones(K)/K`, `history`
holding just the initial vector, all other series empty. -/
def initState (n : ℕ) : SimState n :=
  { probabilities := fun _ => 1 / ((n : ℚ) + 1)
    history := [fun _ => 1 / ((n : ℚ) + 1)]
    payoffHistory := fun _ => []
    strategyHistory := []
    payoffMatrices := []
    pairwiseHistory := [] }

/-- The body of `for period in range(num_periods)` in
`src/streamlit_app.py`: compute pairwise payoffs and their row sums from
the current shares, record them, record the static best opponents, shift
the payoffs, reweight and renormalize the shares, append to `history`. -/
def simPeriod {n : ℕ} (M : Mat n) (s : SimState n) : SimState n :=
  let payoffs := expPayoffs M s.probabilities
  let pairwise : Mat n := fun i j => M i j * s.probabilities j
  let best : Fin (n + 1) → Fin (n + 1) := fun i => bestOpponent (M i)
  let adj := adjustPayoffs payoffs
  let p' := updateShares s.probabilities adj
  { probabilities := p'
    history := s.history ++ [p']
    payoffHistory := fun i => s.payoffHistory i ++ [payoffs i]
    strategyHistory := s.strategyHistory ++ [best]
    payoffMatrices := s.payoffMatrices ++ [payoffs]
    pairwiseHistory := s.pairwiseHistory ++ [pairwise] }

/-- `simulate_replication_dynamics(num_periods, payoff_matrix)` for a
complete payoff matrix: `range(num_periods)` iterates `num_periods` times
when positive and zero times otherwise (`Int.toNat`). -/
def simulate {n : ℕ} (M : Mat n) (numPeriods : ℤ) : SimState n :=
  (simPeriod M)^[numPeriods.toNat] (initState n)

/-- One loop iteration when the payoff matrix may have missing entries:
every pair `(i, j)` is looked up in the period's double loop, so a single
missing entry raises `KeyError` (modelled as `none`); otherwise the period
proceeds as `simPeriod` on the extracted total matrix. -/
def simPeriodE {n : ℕ} (M : Fin (n + 1) → Fin (n + 1) → Option ℚ)
    (s : SimState n) : Option (SimState n) :=
  if h : ∀ i j, (M i j).isSome then
    some (simPeriod (fun i j => (M i j).get (h i j)) s)
  else
    none

/-- `simulate_replication_dynamics` over a dict-of-dicts payoff matrix:
initialisation never consults the matrix, then `numPeriods.toNat` loop
iterations, each of which fails if any entry is missing; a raised
exception propagates (`Option.bind`), so no partial output is returned. -/
def simulateE {n : ℕ} (M : Fin (n + 1) → Fin (n + 1) → Option ℚ)
    (numPeriods : ℤ) : Option (SimState n) :=
  (fun s => s.bind (simPeriodE M))^[numPeriods.toNat] (some (initState n))

/-- Modelled from the spec: the one-period update exactly as the spec
words it — `π_i = Σ_j payoff_matrix[i][j] * p_j`, `m = min_i(π_i)`,
`adj_i = π_i - m + 1` if `m < 0` else `adj_i = π_i + 1`, then
`p_i ← p_i * adj_i` renormalized by `Σ_k p_k * adj_k`. -/
def specUpdate {n : ℕ} (M : Mat n) (p : Vec n) : Vec n :=
  let π : Vec n := fun i => ∑ j, M i j * p j
  let m : ℚ := Finset.univ.inf' Finset.univ_nonempty π
  let adj : Vec n := fun i => if m < 0 then π i - m + 1 else π i + 1
  fun i => p i * adj i / ∑ k, p k * adj k

/-- The two-strategy matrix of the spec's dominant-strategy scenario:
`A:{A:3,B:3}, B:{A:0,B:0}`. -/
def dominantMatrix : Mat 1 := ![![3, 3], ![0, 0]]

/-- The default matrix as a dict-of-dicts (every entry present). -/
def defaultPayoffMatrixE : Fin 8 → Fin 8 → Option ℚ :=
  fun i j => some (defaultPayoffMatrix i j)

/-- A two-strategy matrix with one missing entry (`A` vs `B` absent). -/
def missingEntryMatrix : Fin 2 → Fin 2 → Option ℚ :=
  ![![some 1, none], ![some 0, some 0]]

/-- The shares after `t` loop iterations, starting from the uniform vector. -/
def trajectory {n : ℕ} (M : Mat n) (t : ℕ) : Vec n :=
  (stepShares M)^[t] (fun _ => 1 / ((n : ℚ) + 1))

lemma minPayoff_le {n : ℕ} (payoffs : Vec n) (i : Fin (n + 1)) :
    minPayoff payoffs ≤ payoffs i :=
  Finset.inf'_le _ (Finset.mem_univ i)

lemma adjustPayoffs_ge_one {n : ℕ} (payoffs : Vec n) (i : Fin (n + 1)) :
    1 ≤ adjustPayoffs payoffs i := by
  have hmin := minPayoff_le payoffs i
  by_cases h : minPayoff payoffs < 0
  · unfold adjustPayoffs
    rw [if_pos h]
    show 1 ≤ payoffs i - minPayoff payoffs + 1
    linarith
  · have h0 : 0 ≤ minPayoff payoffs := not_lt.mp h
    unfold adjustPayoffs
    rw [if_neg h]
    show 1 ≤ payoffs i + 1
    linarith

lemma denom_pos {n : ℕ} (p adj : Vec n) (hsum : ∑ i, p i = 1)
    (hpos : ∀ i, 0 ≤ p i) (hadj : ∀ i, 1 ≤ adj i) :
    0 < ∑ k, p k * adj k := by
  have h1 : (1 : ℚ) ≤ ∑ k, p k * adj k := by
    calc (1 : ℚ) = ∑ i, p i := hsum.symm
    _ ≤ ∑ k, p k * adj k :=
        Finset.sum_le_sum fun i _ => le_mul_of_one_le_right (hpos i) (hadj i)
  linarith

lemma updateShares_sum {n : ℕ} (p adj : Vec n) (hS : 0 < ∑ k, p k * adj k) :
    ∑ i, updateShares p adj i = 1 := by
  unfold updateShares
  rw [← Finset.sum_div]
  exact div_self (ne_of_gt hS)

lemma updateShares_nonneg {n : ℕ} (p adj : Vec n) (hS : 0 < ∑ k, p k * adj k)
    (hpos : ∀ i, 0 ≤ p i) (hadj : ∀ i, 1 ≤ adj i) (i : Fin (n + 1)) :
    0 ≤ updateShares p adj i := by
  unfold updateShares
  have : 0 ≤ p i * adj i := mul_nonneg (hpos i) (le_trans zero_le_one (hadj i))
  positivity

lemma stepShares_invariant {n : ℕ} (M : Mat n) (p : Vec n) (hsum : ∑ i, p i = 1)
    (hpos : ∀ i, 0 ≤ p i) :
    (∑ i, stepShares M p i) = 1 ∧ ∀ i, 0 ≤ stepShares M p i := by
  have hadj := adjustPayoffs_ge_one (expPayoffs M p)
  have hS := denom_pos p _ hsum hpos hadj
  exact ⟨updateShares_sum p _ hS, updateShares_nonneg p _ hS hpos hadj⟩

lemma uniform_sum (n : ℕ) : ∑ _i : Fin (n + 1), (1 / ((n : ℚ) + 1)) = 1 := by
  rw [Finset.sum_const, Finset.card_univ, Fintype.card_fin, nsmul_eq_mul]
  have hn : ((n : ℚ) + 1) ≠ 0 := by positivity
  push_cast
  field_simp

lemma trajectory_invariant {n : ℕ} (M : Mat n) (t : ℕ) :
    (∑ i, trajectory M t i) = 1 ∧ ∀ i, 0 ≤ trajectory M t i := by
  induction t with
  | zero =>
      refine ⟨uniform_sum n, fun i => ?_⟩
      show (0 : ℚ) ≤ 1 / ((n : ℚ) + 1)
      positivity
  | succ t ih =>
      rw [trajectory, Function.iterate_succ_apply']
      exact stepShares_invariant M _ ih.1 ih.2

lemma trajectory_succ {n : ℕ} (M : Mat n) (t : ℕ) :
    trajectory M (t + 1) = stepShares M (trajectory M t) :=
  Function.iterate_succ_apply' (stepShares M) t _

lemma simulate_iterate_eq {n : ℕ} (M : Mat n) (k : ℕ) :
    (simPeriod M)^[k] (initState n) =
      { probabilities := trajectory M k
        history := (List.range (k + 1)).map (trajectory M)
        payoffHistory := fun i => (List.range k).map fun t => expPayoffs M (trajectory M t) i
        strategyHistory := List.replicate k fun i => bestOpponent (M i)
        payoffMatrices := (List.range k).map fun t => expPayoffs M (trajectory M t)
        pairwiseHistory := (List.range k).map fun t i j => M i j * trajectory M t j } := by
  induction k with
  | zero =>
      rw [List.range_succ]
      simp [initState, trajectory]
  | succ k ih =>
      rw [Function.iterate_succ_apply', ih]
      have hstep : updateShares (trajectory M k)
          (adjustPayoffs (expPayoffs M (trajectory M k))) = trajectory M (k + 1) :=
        (trajectory_succ M k).symm
      simp only [simPeriod]
      refine SimState.ext hstep ?_ ?_ ?_ ?_ ?_
      · rw [hstep]
        conv_rhs => rw [List.range_succ]
        simp
      · funext i
        rw [List.range_succ]
        simp
      · conv_rhs => rw [List.replicate_succ']
      · rw [List.range_succ]
        simp
      · rw [List.range_succ]
        simp

lemma specUpdate_eq_stepShares {n : ℕ} (M : Mat n) (p : Vec n) :
    specUpdate M p = stepShares M p := by
  by_cases h : minPayoff (expPayoffs M p) < 0 <;>
    · funext i
      simp only [specUpdate, stepShares, updateShares, adjustPayoffs, expPayoffs,
        minPayoff] at h ⊢
      simp [h]

lemma le_argmaxAcc {α : Type} (f : α → ℚ) (l : List α) :
    ∀ a, f a ≤ f (argmaxAcc f a l) := by
  induction l with
  | nil => intro a; exact le_rfl
  | cons x l ih =>
      intro a
      by_cases h : f a < f x
      · simpa [argmaxAcc, h] using le_trans h.le (ih x)
      · simpa [argmaxAcc, h] using ih a

lemma mem_le_argmaxAcc {α : Type} (f : α → ℚ) (l : List α) :
    ∀ a x, x ∈ l → f x ≤ f (argmaxAcc f a l) := by
  induction l with
  | nil => intro a x hx; exact absurd hx (List.not_mem_nil x)
  | cons y l ih =>
      intro a x hx
      rcases List.mem_cons.mp hx with rfl | hx
      · by_cases h : f a < f x
        · simpa [argmaxAcc, h] using le_argmaxAcc f l x
        · calc f x ≤ f a := not_lt.mp h
          _ ≤ _ := by simpa [argmaxAcc, h] using le_argmaxAcc f l a
      · exact ih _ x hx

lemma bestOpponent_max {n : ℕ} (row : Vec n) (j : Fin (n + 1)) :
    row j ≤ row (bestOpponent row) :=
  mem_le_argmaxAcc row (List.finRange (n + 1)) 0 j (List.mem_finRange j)

lemma simulate_history_getElem {n : ℕ} (M : Mat n) (numPeriods : ℤ) (t : ℕ)
    (ht : t < numPeriods.toNat + 1) :
    (simulate M numPeriods).history[t]? = some (trajectory M t) := by
  rw [simulate, simulate_iterate_eq]
  show ((List.range (numPeriods.toNat + 1)).map (trajectory M))[t]? = _
  rw [List.getElem?_map, List.getElem?_range ht]
  rfl

lemma simulate_history_length {n : ℕ} (M : Mat n) (numPeriods : ℤ) :
    (simulate M numPeriods).history.length = numPeriods.toNat + 1 := by
  rw [simulate, simulate_iterate_eq]
  show ((List.range (numPeriods.toNat + 1)).map (trajectory M)).length = _
  rw [List.length_map, List.length_range]

lemma simulate_payoffHistory_getElem {n : ℕ} (M : Mat n) (numPeriods : ℤ) (t : ℕ)
    (ht : t < numPeriods.toNat) (i : Fin (n + 1)) :
    ((simulate M numPeriods).payoffHistory i)[t]? =
      some (expPayoffs M (trajectory M t) i) := by
  rw [simulate, simulate_iterate_eq]
  show ((List.range numPeriods.toNat).map fun s => expPayoffs M (trajectory M s) i)[t]? = _
  rw [List.getElem?_map, List.getElem?_range ht]
  rfl

lemma history_getElem_inv {n : ℕ} (M : Mat n) (numPeriods : ℤ) (t : ℕ) (p : Vec n)
    (hp : (simulate M numPeriods).history[t]? = some p) : p = trajectory M t := by
  have hlt : t < (simulate M numPeriods).history.length := by
    by_contra hge
    rw [List.getElem?_eq_none (le_of_not_lt hge)] at hp
    exact Option.noConfusion hp
  rw [simulate_history_length] at hlt
  have h := simulate_history_getElem M numPeriods t hlt
  rw [hp] at h
  exact Option.some.inj h

/-- Claim C1: each simulation period transforms the current share vector
exactly as the spec's formulas say (expected payoffs `π_i = Σ_j M[i][j]·p_j`
by full mixing, the min-shift `+1` multipliers, renormalization by the
total), and the recorded payoff-history value for period `t` equals `π_i`
computed from the share vector before that period's update. -/
theorem period_update_matches_spec {n : ℕ} (M : Mat n) (numPeriods : ℤ)
    (_hnum : 1 ≤ numPeriods) (t : ℕ) (ht : t < numPeriods.toNat) (p : Vec n)
    (hp : (simulate M numPeriods).history[t]? = some p) :
    (simulate M numPeriods).history[t + 1]? = some (specUpdate M p) ∧
    ∀ i, ((simulate M numPeriods).payoffHistory i)[t]? =
      some (∑ j, M i j * p j) := by
  obtain rfl := history_getElem_inv M numPeriods t p hp
  constructor
  · rw [simulate_history_getElem M numPeriods (t + 1) (Nat.succ_lt_succ ht),
      specUpdate_eq_stepShares, ← trajectory_succ]
  · intro i
    rw [simulate_payoffHistory_getElem M numPeriods t ht i]
    rfl

/-- Concrete run of `period_update_matches_spec`: default matrix, one
period, `t = 0`. -/
theorem period_update_matches_spec_witness :
    (simulate defaultPayoffMatrix 1).history[0 + 1]? =
      some (specUpdate defaultPayoffMatrix fun _ => 1 / (((7 : ℕ) : ℚ) + 1)) ∧
    ∀ i, ((simulate defaultPayoffMatrix 1).payoffHistory i)[0]? =
      some (∑ j, defaultPayoffMatrix i j * (fun _ => 1 / (((7 : ℕ) : ℚ) + 1)) j) :=
  period_update_matches_spec defaultPayoffMatrix 1 (by decide) 0 (by decide) _ rfl

/-- Claim C2: every population-share vector in the returned history sums
exactly to 1 (hence within any tolerance) and has all entries ≥ 0. -/
theorem history_vectors_are_distributions {n : ℕ} (M : Mat n) (numPeriods : ℤ)
    (v : Vec n) (hv : v ∈ (simulate M numPeriods).history) :
    (∑ i, v i) = 1 ∧ ∀ i, 0 ≤ v i := by
  rw [simulate, simulate_iterate_eq] at hv
  obtain ⟨t, -, rfl⟩ := List.mem_map.mp hv
  exact trajectory_invariant M t

/-- Concrete run of `history_vectors_are_distributions`: the uniform
vector of the default 8-strategy run. -/
theorem history_vectors_are_distributions_witness :
    (∑ i, (fun _ => 1 / (((7 : ℕ) : ℚ) + 1) : Vec 7) i) = 1 ∧
    ∀ i, 0 ≤ (fun _ => 1 / (((7 : ℕ) : ℚ) + 1) : Vec 7) i :=
  history_vectors_are_distributions defaultPayoffMatrix 1 _ (List.mem_cons_self _ _)

/-- Claim C3: in every period every reweighting multiplier is ≥ 1, and
the renormalization denominator `Σ_k p_k · adj_k` is strictly positive,
so the share update never divides by zero. -/
theorem adjustment_floor_and_denominator_pos {n : ℕ} (M : Mat n) (numPeriods : ℤ)
    (t : ℕ) (p : Vec n) (hp : (simulate M numPeriods).history[t]? = some p) :
    (∀ i, 1 ≤ adjustPayoffs (expPayoffs M p) i) ∧
    0 < ∑ k, p k * adjustPayoffs (expPayoffs M p) k := by
  obtain rfl := history_getElem_inv M numPeriods t p hp
  have hinv := trajectory_invariant M t
  have hadj := adjustPayoffs_ge_one (expPayoffs M (trajectory M t))
  exact ⟨hadj, denom_pos _ _ hinv.1 hinv.2 hadj⟩

/-- Concrete run of `adjustment_floor_and_denominator_pos`: default
matrix at the uniform starting vector. -/
theorem adjustment_floor_and_denominator_pos_witness :
    (∀ i, 1 ≤ adjustPayoffs
      (expPayoffs defaultPayoffMatrix fun _ => 1 / (((7 : ℕ) : ℚ) + 1)) i) ∧
    0 < ∑ k, (fun _ => 1 / (((7 : ℕ) : ℚ) + 1) : Vec 7) k *
      adjustPayoffs (expPayoffs defaultPayoffMatrix fun _ => 1 / (((7 : ℕ) : ℚ) + 1)) k :=
  adjustment_floor_and_denominator_pos defaultPayoffMatrix 1 0 _ rfl

/-- Claim C4: the first element of the returned history is exactly the
uniform vector `[1/K, ..., 1/K]`, and the default strategy set has
`K = 8` strategies. -/
theorem history_starts_uniform {n : ℕ} (M : Mat n) (numPeriods : ℤ) :
    (simulate M numPeriods).history[0]? = some (fun _ => 1 / ((n : ℚ) + 1)) ∧
    automatons.length = 8 := by
  refine ⟨?_, rfl⟩
  rw [simulate_history_getElem M numPeriods 0 (Nat.succ_pos _)]
  rfl

/-- Claim C5: for `num_periods ≥ 1` the history has `num_periods + 1`
entries and every strategy's payoff series has `num_periods` entries. -/
theorem history_and_payoff_lengths {n : ℕ} (M : Mat n) (numPeriods : ℤ)
    (hnum : 1 ≤ numPeriods) :
    ((simulate M numPeriods).history.length : ℤ) = numPeriods + 1 ∧
    ∀ i, (((simulate M numPeriods).payoffHistory i).length : ℤ) = numPeriods := by
  have htn : (numPeriods.toNat : ℤ) = numPeriods := Int.toNat_of_nonneg (by linarith)
  constructor
  · rw [simulate_history_length]
    push_cast
    rw [htn]
  · intro i
    have hlen : ((simulate M numPeriods).payoffHistory i).length = numPeriods.toNat := by
      rw [simulate, simulate_iterate_eq]
      show ((List.range numPeriods.toNat).map fun t => expPayoffs M (trajectory M t) i).length = _
      rw [List.length_map, List.length_range]
    rw [hlen, htn]

/-- Concrete run of `history_and_payoff_lengths`: default matrix, two
periods. -/
theorem history_and_payoff_lengths_witness :
    ((simulate defaultPayoffMatrix 2).history.length : ℤ) = 2 + 1 ∧
    ∀ i, (((simulate defaultPayoffMatrix 2).payoffHistory i).length : ℤ) = 2 :=
  history_and_payoff_lengths defaultPayoffMatrix 2 (by decide)

/-- Claim C6: every best-response entry recorded in `strategy_history` is
the static argmax of the payoff-matrix row — a fixed function of the
matrix alone, so it is identical in every period and independent of the
current shares — and it maximizes the static row entry over all
opponents. -/
theorem best_response_static {n : ℕ} (M : Mat n) (numPeriods : ℤ)
    (e : Fin (n + 1) → Fin (n + 1))
    (he : e ∈ (simulate M numPeriods).strategyHistory) (i j : Fin (n + 1)) :
    e i = bestOpponent (M i) ∧ M i j ≤ M i (e i) := by
  rw [simulate, simulate_iterate_eq] at he
  have h := List.eq_of_mem_replicate he
  subst h
  exact ⟨rfl, bestOpponent_max (M i) j⟩

/-- Concrete run of `best_response_static`: default matrix, one period,
strategy DOVE (index 0) against opponent HAWK (index 1). -/
theorem best_response_static_witness :
    (fun i => bestOpponent (defaultPayoffMatrix i)) 0 = bestOpponent (defaultPayoffMatrix 0) ∧
    defaultPayoffMatrix 0 1 ≤
      defaultPayoffMatrix 0 ((fun i => bestOpponent (defaultPayoffMatrix i)) 0) :=
  best_response_static defaultPayoffMatrix 1 _ (List.mem_cons_self _ _) 0 1

lemma dominant_expPayoffs (p : Vec 1) (hsum : p 0 + p 1 = 1) :
    expPayoffs dominantMatrix p 0 = 3 ∧ expPayoffs dominantMatrix p 1 = 0 := by
  constructor
  · show (∑ j, dominantMatrix 0 j * p j) = 3
    rw [Fin.sum_univ_two]
    simp [dominantMatrix]
    linarith
  · show (∑ j, dominantMatrix 1 j * p j) = 0
    rw [Fin.sum_univ_two]
    simp [dominantMatrix]

lemma dominant_adj (p : Vec 1) (hsum : p 0 + p 1 = 1) :
    adjustPayoffs (expPayoffs dominantMatrix p) 0 = 4 ∧
    adjustPayoffs (expPayoffs dominantMatrix p) 1 = 1 := by
  obtain ⟨h0, h1⟩ := dominant_expPayoffs p hsum
  have hmin : ¬ minPayoff (expPayoffs dominantMatrix p) < 0 := by
    apply not_lt.mpr
    show (0 : ℚ) ≤ Finset.univ.inf' Finset.univ_nonempty (expPayoffs dominantMatrix p)
    refine Finset.le_inf' _ _ fun i _ => ?_
    fin_cases i
    · show (0 : ℚ) ≤ expPayoffs dominantMatrix p 0
      rw [h0]; norm_num
    · show (0 : ℚ) ≤ expPayoffs dominantMatrix p 1
      rw [h1]
  constructor
  · unfold adjustPayoffs
    rw [if_neg hmin]
    show expPayoffs dominantMatrix p 0 + 1 = 4
    rw [h0]; norm_num
  · unfold adjustPayoffs
    rw [if_neg hmin]
    show expPayoffs dominantMatrix p 1 + 1 = 1
    rw [h1]; norm_num

lemma dominant_step_val (p : Vec 1) (hsum : p 0 + p 1 = 1) :
    stepShares dominantMatrix p 0 = 4 * p 0 / (3 * p 0 + 1) := by
  obtain ⟨ha0, ha1⟩ := dominant_adj p hsum
  show updateShares p (adjustPayoffs (expPayoffs dominantMatrix p)) 0 = _
  unfold updateShares
  rw [Fin.sum_univ_two, ha0, ha1]
  have h1 : p 1 = 1 - p 0 := by linarith
  rw [h1]
  ring_nf

lemma dominant_growth (p : Vec 1) (hsum : p 0 + p 1 = 1) (hpos : 0 < p 0)
    (hlt : p 0 < 1) :
    p 0 < stepShares dominantMatrix p 0 ∧ stepShares dominantMatrix p 0 < 1 := by
  rw [dominant_step_val p hsum]
  have hden : (0 : ℚ) < 3 * p 0 + 1 := by linarith
  constructor
  · rw [lt_div_iff₀ hden]
    nlinarith
  · rw [div_lt_one hden]
    linarith

lemma dominant_trajectory_bounds (t : ℕ) :
    0 < trajectory dominantMatrix t 0 ∧ trajectory dominantMatrix t 0 < 1 := by
  induction t with
  | zero =>
      constructor
      · show (0 : ℚ) < 1 / (((1 : ℕ) : ℚ) + 1)
        norm_num
      · show (1 : ℚ) / (((1 : ℕ) : ℚ) + 1) < 1
        norm_num
  | succ t ih =>
      have hsum : trajectory dominantMatrix t 0 + trajectory dominantMatrix t 1 = 1 := by
        rw [← Fin.sum_univ_two]
        exact (trajectory_invariant dominantMatrix t).1
      rw [trajectory_succ]
      have hg := dominant_growth _ hsum ih.1 ih.2
      exact ⟨lt_trans ih.1 hg.1, hg.2⟩

/-- Claim C7: with strategies A, B, payoffs A:{A:3,B:3}, B:{A:0,B:0} and
the uniform start, every period has `π_A = 3`, `π_B = 0`, hence
`adj_A = 4`, `adj_B = 1`, and A's share strictly increases each period
while staying strictly below 1 after any finite number of periods. -/
theorem dominant_strategy_monotone (numPeriods : ℤ) (t : ℕ) (p q : Vec 1)
    (hp : (simulate dominantMatrix numPeriods).history[t]? = some p)
    (hq : (simulate dominantMatrix numPeriods).history[t + 1]? = some q) :
    expPayoffs dominantMatrix p 0 = 3 ∧ expPayoffs dominantMatrix p 1 = 0 ∧
    adjustPayoffs (expPayoffs dominantMatrix p) 0 = 4 ∧
    adjustPayoffs (expPayoffs dominantMatrix p) 1 = 1 ∧
    p 0 < q 0 ∧ q 0 < 1 := by
  obtain rfl := history_getElem_inv _ _ _ p hp
  obtain rfl := history_getElem_inv _ _ _ q hq
  have hsum : trajectory dominantMatrix t 0 + trajectory dominantMatrix t 1 = 1 := by
    rw [← Fin.sum_univ_two]
    exact (trajectory_invariant dominantMatrix t).1
  obtain ⟨hb0, hb1⟩ := dominant_trajectory_bounds t
  obtain ⟨h0, h1⟩ := dominant_expPayoffs _ hsum
  obtain ⟨ha0, ha1⟩ := dominant_adj _ hsum
  have hg := dominant_growth _ hsum hb0 hb1
  rw [trajectory_succ]
  exact ⟨h0, h1, ha0, ha1, hg.1, hg.2⟩

/-- Concrete run of `dominant_strategy_monotone`: one period from the
uniform start `[1/2, 1/2]`. -/
theorem dominant_strategy_monotone_witness :
    expPayoffs dominantMatrix (fun _ => 1 / (((1 : ℕ) : ℚ) + 1)) 0 = 3 ∧
    expPayoffs dominantMatrix (fun _ => 1 / (((1 : ℕ) : ℚ) + 1)) 1 = 0 ∧
    adjustPayoffs (expPayoffs dominantMatrix fun _ => 1 / (((1 : ℕ) : ℚ) + 1)) 0 = 4 ∧
    adjustPayoffs (expPayoffs dominantMatrix fun _ => 1 / (((1 : ℕ) : ℚ) + 1)) 1 = 1 ∧
    (fun _ => 1 / (((1 : ℕ) : ℚ) + 1) : Vec 1) 0 <
      stepShares dominantMatrix (fun _ => 1 / (((1 : ℕ) : ℚ) + 1)) 0 ∧
    stepShares dominantMatrix (fun _ => 1 / (((1 : ℕ) : ℚ) + 1)) 0 < 1 :=
  dominant_strategy_monotone 1 0 _ _ rfl rfl

lemma simulateE_nonpos {n : ℕ} (M : Fin (n + 1) → Fin (n + 1) → Option ℚ)
    (numPeriods : ℤ) (h : numPeriods ≤ 0) :
    simulateE M numPeriods = some (initState n) := by
  unfold simulateE
  rw [Int.toNat_of_nonpos h]
  rfl

lemma simulateE_missing {n : ℕ} (M : Fin (n + 1) → Fin (n + 1) → Option ℚ)
    (i j : Fin (n + 1)) (hij : M i j = none) (numPeriods : ℤ)
    (h : 1 ≤ numPeriods) :
    simulateE M numPeriods = none := by
  have hcond : ¬ ∀ a b, (M a b).isSome := by
    intro hall
    have hs := hall i j
    rw [hij] at hs
    exact Bool.noConfusion hs
  have hstepE : ∀ s, simPeriodE M s = none := by
    intro s
    unfold simPeriodE
    rw [dif_neg hcond]
  have hnone : ∀ k, (fun s => s.bind (simPeriodE M))^[k] (none : Option (SimState n)) = none := by
    intro k
    induction k with
    | zero => rfl
    | succ k ihk =>
        rw [Function.iterate_succ_apply]
        exact ihk
  obtain ⟨k, hk⟩ : ∃ k, numPeriods.toNat = k + 1 :=
    ⟨numPeriods.toNat - 1, by omega⟩
  unfold simulateE
  rw [hk, Function.iterate_succ_apply]
  calc (fun s => s.bind (simPeriodE M))^[k] ((some (initState n)).bind (simPeriodE M))
      = (fun s => s.bind (simPeriodE M))^[k] (none : Option (SimState n)) := by
        rw [Option.some_bind, hstepE]
    _ = none := hnone k

/-- Claim C8 as stated is false on the code: at `num_periods = -1` — not
a positive integer, and not the zero-period case the claim's escape
clause tolerates — the run does not fail at all: it returns the initial
state with no error. -/
theorem no_period_count_validation :
    simulateE defaultPayoffMatrixE (-1) = some (initState 7) := rfl

/-- Claim C8 amended: for `num_periods ≤ 0` (zero or negative) the run
raises no `InvalidPeriodCount` error; the loop body never runs and the
call silently returns just the initial state. -/
theorem nonpositive_periods_noop (n : ℕ) (M : Fin (n + 1) → Fin (n + 1) → Option ℚ)
    (numPeriods : ℤ) (h : numPeriods ≤ 0) :
    simulateE M numPeriods = some (initState n) :=
  simulateE_nonpos M numPeriods h

/-- Concrete run of `nonpositive_periods_noop`: zero periods over the
default matrix. -/
theorem nonpositive_periods_noop_witness :
    simulateE defaultPayoffMatrixE 0 = some (initState 7) :=
  nonpositive_periods_noop 7 defaultPayoffMatrixE 0 (by decide)

/-- Claim C9: a payoff matrix missing an entry for some required
(strategy, opponent) pair makes a run with `num_periods ≥ 1` fail
(the first period's lookup raises; the exception propagates), and no
partial output is produced — the call returns nothing at all. -/
theorem missing_entry_fails (n : ℕ) (M : Fin (n + 1) → Fin (n + 1) → Option ℚ)
    (numPeriods : ℤ) (h : 1 ≤ numPeriods) (i j : Fin (n + 1))
    (hij : M i j = none) :
    simulateE M numPeriods = none :=
  simulateE_missing M i j hij numPeriods h

/-- Concrete run of `missing_entry_fails`: two strategies, the (A,B)
payoff entry absent, one period. -/
theorem missing_entry_fails_witness :
    simulateE missingEntryMatrix 1 = none :=
  missing_entry_fails 1 missingEntryMatrix 1 (by decide) 0 1 rfl

/-- Claim C10: for `num_periods = 0` and for any negative `num_periods`,
the call raises no error and returns a history of length 1 holding only
the uniform initial vector, an empty payoff history, and empty diagnostic
histories — a silent no-op rather than a rejection. -/
theorem zero_or_negative_periods_noop (n : ℕ)
    (M : Fin (n + 1) → Fin (n + 1) → Option ℚ) (numPeriods : ℤ)
    (h : numPeriods ≤ 0) :
    ∃ s, simulateE M numPeriods = some s ∧
      s.history = [fun _ => 1 / ((n : ℚ) + 1)] ∧ s.history.length = 1 ∧
      (∀ i, s.payoffHistory i = []) ∧ s.strategyHistory = [] ∧
      s.payoffMatrices = [] ∧ s.pairwiseHistory = [] :=
  ⟨initState n, simulateE_nonpos M numPeriods h, rfl, rfl, fun _ => rfl, rfl, rfl, rfl⟩

/-- Concrete run of `zero_or_negative_periods_noop`: `num_periods = -3`
over the default matrix. -/
theorem zero_or_negative_periods_noop_witness :
    ∃ s, simulateE defaultPayoffMatrixE (-3) = some s ∧
      s.history = [fun _ => 1 / (((7 : ℕ) : ℚ) + 1)] ∧ s.history.length = 1 ∧
      (∀ i, s.payoffHistory i = []) ∧ s.strategyHistory = [] ∧
      s.payoffMatrices = [] ∧ s.pairwiseHistory = [] :=
  zero_or_negative_periods_noop 7 defaultPayoffMatrixE (-3) (by decide)

end ReplicationGame
